import Mathlib

/-!
Verification of the Quill scope-extraction library.

The program is embedded shallowly: Rust strings become `List Char`, the
`lines` iterator, whitespace trimming, whitespace tokenization and the
scope-extraction loop are translated definition by definition from
`src/lib.rs`.  Machine integers (`usize` counters) become `Nat`; the
fallible extraction returns `Except`.
-/

set_option autoImplicit false
set_option maxRecDepth 10000

namespace Quill

/-- The Unicode `White_Space` characters, as recognized by Rust's
`char::is_whitespace` (used by `str::trim_start` and
`str::split_whitespace`). -/
def isUnicodeWs (c : Char) : Bool :=
  (decide (0x9 ≤ c.toNat) && decide (c.toNat ≤ 0xD)) || decide (c.toNat = 0x20) ||
  decide (c.toNat = 0x85) || decide (c.toNat = 0xA0) || decide (c.toNat = 0x1680) ||
  (decide (0x2000 ≤ c.toNat) && decide (c.toNat ≤ 0x200A)) ||
  decide (c.toNat = 0x2028) || decide (c.toNat = 0x2029) || decide (c.toNat = 0x202F) ||
  decide (c.toNat = 0x205F) || decide (c.toNat = 0x3000)

/-- Rust's `str::trim_start`: drop leading whitespace characters. -/
def trim_start (line : List Char) : List Char := line.dropWhile isUnicodeWs

/-- Accumulator worker for `split_whitespace`; `acc` holds the
characters of the token currently being read, in reverse. -/
def splitWsAux : List Char → List Char → List (List Char)
  | [], acc => if acc.isEmpty then [] else [acc.reverse]
  | c :: rest, acc =>
    if isUnicodeWs c then
      if acc.isEmpty then splitWsAux rest [] else acc.reverse :: splitWsAux rest []
    else splitWsAux rest (c :: acc)

/-- Rust's `str::split_whitespace`: the maximal whitespace-free tokens
of a string, in order. -/
def split_whitespace (s : List Char) : List (List Char) := splitWsAux s []

/-- `is_valid_scope_name` from the source: the name is non-empty and
every character is an ASCII letter, an ASCII digit, `_` or `-`. -/
def is_valid_scope_name (name : List Char) : Bool :=
  !name.isEmpty && name.all (fun c => c.isAlphanum || c == '_' || c == '-')

/-- The UTF-8 width in bytes of one character, as used by Rust byte
indices such as the result of `str::find`. -/
def utf8Len (c : Char) : Nat :=
  if c.toNat < 0x80 then 1 else if c.toNat < 0x800 then 2
  else if c.toNat < 0x10000 then 3 else 4

/-- The byte offset of the first `@` in the line, if any
(Rust's `line.find('@')`). -/
def findAtAux : List Char → Nat → Option Nat
  | [], _ => none
  | c :: rest, pos => if c = '@' then some pos else findAtAux rest (pos + utf8Len c)

/-- The reported column of a declaration line:
`line.find('@').unwrap_or(0) + 1` in the source, a 1-indexed byte
position of the first `@` on the raw (untrimmed) line. -/
def atColumn (line : List Char) : Nat := (findAtAux line 0).getD 0 + 1

/-- The canonical name of the global scope. -/
def globalName : List Char := "global".data

/-- The `Scope` enum from the source. -/
inductive Scope where
  | Global : Scope
  | DefinedScope : List Char → Scope
deriving DecidableEq

/-- The `Into<&str> for Scope` conversion from the source: the name of
the scope itself. -/
def Scope.intoStr : Scope → List Char
  | .Global => globalName
  | .DefinedScope name => name

/-- The `QuillError` enum from the source. -/
inductive QuillError where
  | InvalidScopeName : List Char → Nat → Nat → QuillError
  | InvalidScopeArgument : List Char → QuillError
deriving DecidableEq

instance exceptDecEq {ε α : Type} [DecidableEq ε] [DecidableEq α] :
    DecidableEq (Except ε α) := fun a b =>
  match a, b with
  | .ok x, .ok y =>
    if h : x = y then .isTrue (by rw [h]) else .isFalse (fun hh => h (Except.ok.inj hh))
  | .error x, .error y =>
    if h : x = y then .isTrue (by rw [h]) else .isFalse (fun hh => h (Except.error.inj hh))
  | .ok _, .error _ => .isFalse (fun hh => Except.noConfusion hh)
  | .error _, .ok _ => .isFalse (fun hh => Except.noConfusion hh)

/-- The mutable locals of the extraction loop: `current_scopes`,
`include_content` and `line_number`. -/
structure ScanState where
  current_scopes : List (List Char)
  include_content : Bool
  line_number : Nat
deriving DecidableEq

/-- The token loop of `extract_scope`: walk the whitespace tokens of the
trimmed line; every token starting with `@` contributes its name (the
token with the `@` stripped), which must pass `is_valid_scope_name`,
otherwise the extraction aborts with `InvalidScopeName` carrying the
name, the line number, and the column of the first `@` of the raw line. -/
def collect_scopes (line : List Char) (line_number : Nat) :
    List (List Char) → Except QuillError (List (List Char))
  | [] => .ok []
  | token :: rest =>
    if token.head? = some '@' then
      if is_valid_scope_name (token.drop 1) = false then
        .error (.InvalidScopeName (token.drop 1) line_number (atColumn line))
      else
        match collect_scopes line line_number rest with
        | .error e => .error e
        | .ok scopes => .ok (token.drop 1 :: scopes)
    else collect_scopes line line_number rest

/-- The inclusion test of the source (lines 251-253): the active scopes
contain the target, or contain `"global"`, or the target is `"global"`. -/
def include_pred (target : List Char) (scopes : List (List Char)) : Bool :=
  scopes.contains target || scopes.contains globalName || target == globalName

/-- One iteration of the `while let Some(line)` loop: bump the line
number, classify the line, update the state, and emit this line's
contribution to the output (`result`). -/
def process_line (target : List Char) (st : ScanState) (line : List Char) :
    Except QuillError (ScanState × List Char) :=
  if (trim_start line).head? = some '@' then
    match collect_scopes line (st.line_number + 1) (split_whitespace (trim_start line)) with
    | .error e => .error e
    | .ok scopes =>
      if scopes.isEmpty then
        .ok (⟨st.current_scopes, st.include_content, st.line_number + 1⟩,
             (if st.include_content then line else []) ++ ['\n'])
      else
        .ok (⟨scopes, include_pred target scopes, st.line_number + 1⟩, ['\n'])
  else
    .ok (⟨st.current_scopes, st.include_content, st.line_number + 1⟩,
         (if st.include_content then line else []) ++ ['\n'])

/-- The whole extraction loop: process every line, concatenating the
emitted pieces of `result`. -/
def process_lines (target : List Char) (st : ScanState) :
    List (List Char) → Except QuillError (List Char)
  | [] => .ok []
  | line :: rest =>
    match process_line target st line with
    | .error e => .error e
    | .ok (st', chunk) =>
      match process_lines target st' rest with
      | .error e => .error e
      | .ok out => .ok (chunk ++ out)

/-- Split a character list at every `'\n'`; always returns one more
segment than there are newline characters. -/
def splitOnNl : List Char → List (List Char)
  | [] => [[]]
  | c :: rest =>
    if c = '\n' then [] :: splitOnNl rest
    else
      match splitOnNl rest with
      | [] => [[c]]
      | l :: ls => (c :: l) :: ls

/-- Remove one trailing carriage return, as Rust's `lines` does for a
segment that was terminated by `'\n'`. -/
def stripCr (l : List Char) : List Char :=
  if l.getLast? = some '\r' then l.dropLast else l

/-- Rust's `str::lines`: split at `'\n'`, a final line terminator
produces no extra line, and a segment terminated by `'\n'` loses one
trailing `'\r'` (only the last segment of an unterminated string keeps
everything). -/
def rustLines (s : List Char) : List (List Char) :=
  if s = [] then []
  else if s.getLast? = some '\n' then ((splitOnNl s).dropLast).map stripCr
  else ((splitOnNl s).dropLast).map stripCr ++ [(splitOnNl s).getLast?.getD []]

/-- The initial loop state: `current_scopes = ["global"]`,
`include_content = true`, `line_number = 0`. -/
def initState : ScanState := ⟨[globalName], true, 0⟩

/-- `extract_scope` from the source: validate the target scope name
(unless it is `"global"`), run the loop over the lines, and remove the
trailing newline if the original text did not have one. -/
def extract_scope (toml_str : List Char) (scope : Scope) : Except QuillError (List Char) :=
  if scope.intoStr ≠ globalName ∧ is_valid_scope_name scope.intoStr = false then
    .error (.InvalidScopeArgument scope.intoStr)
  else
    match process_lines scope.intoStr initState (rustLines toml_str) with
    | .error e => .error e
    | .ok result =>
      .ok (if toml_str.getLast? ≠ some '\n' ∧ result.getLast? = some '\n'
           then result.dropLast else result)

/-- Join line bodies back into a text, separating consecutive bodies by
a newline (the inverse of `splitOnNl` on newline-free bodies). -/
def unsplit : List (List Char) → List Char
  | [] => []
  | [l] => l
  | l :: l2 :: ls => l ++ '\n' :: unsplit (l2 :: ls)

/-- Join line bodies into a text in which every body, the last included,
is terminated by a newline: the shape of the loop's `result` string,
which pushes `'\n'` once per input line. -/
def nlJoin : List (List Char) → List Char
  | [] => []
  | b :: bs => b ++ '\n' :: nlJoin bs

/-- The number of line positions of a text: one more than the number of
newline characters, so a text and its line-blanked image have the same
count and line N of one corresponds to line N of the other. -/
def line_count (s : List Char) : Nat := (splitOnNl s).length

/-- Modelled from the claim's words for C4: the first invalid scope
token of a declaration line, scanning tokens left to right. -/
def firstBadToken : List (List Char) → Option (List Char)
  | [] => none
  | token :: rest =>
    if token.head? = some '@' then
      if is_valid_scope_name (token.drop 1) = false then some (token.drop 1)
      else firstBadToken rest
    else firstBadToken rest

/-- Modelled from the claim's words for C4: scanning lines top to bottom
and tokens left to right, the first invalid scope token contained in a
declaration line, together with its 1-indexed line number and the
1-indexed column of the first `@` character of that raw, untrimmed line. -/
def firstInvalidScope (line_number : Nat) : List (List Char) → Option (List Char × Nat × Nat)
  | [] => none
  | line :: rest =>
    if (trim_start line).head? = some '@' then
      match firstBadToken (split_whitespace (trim_start line)) with
      | some name => some (name, line_number + 1, atColumn line)
      | none => firstInvalidScope (line_number + 1) rest
    else firstInvalidScope (line_number + 1) rest

end Quill

namespace Quill

/-! Basic facts about `splitOnNl`, `unsplit` and `nlJoin`. -/

theorem splitOnNl_ne_nil (s : List Char) : splitOnNl s ≠ [] := by
  cases s with
  | nil => simp [splitOnNl]
  | cons c rest =>
    simp only [splitOnNl]
    split
    · simp
    · split <;> simp

theorem unsplit_splitOnNl (s : List Char) : unsplit (splitOnNl s) = s := by
  induction s with
  | nil => rfl
  | cons c rest ih =>
    simp only [splitOnNl]
    split
    · rename_i hc
      cases hr : splitOnNl rest with
      | nil => exact absurd hr (splitOnNl_ne_nil rest)
      | cons p ps =>
        rw [hr] at ih
        simp [unsplit, hc, ih]
    · rename_i hc
      cases hr : splitOnNl rest with
      | nil => exact absurd hr (splitOnNl_ne_nil rest)
      | cons p ps =>
        rw [hr] at ih
        cases ps with
        | nil => simp_all [unsplit]
        | cons q qs => simp_all [unsplit]

theorem nl_not_mem_splitOnNl (s : List Char) :
    ∀ l ∈ splitOnNl s, '\n' ∉ l := by
  induction s with
  | nil =>
    intro l hl
    simp [splitOnNl] at hl
    simp [hl]
  | cons c rest ih =>
    intro l hl
    simp only [splitOnNl] at hl
    split at hl
    · rename_i hc
      rcases List.mem_cons.1 hl with h | h
      · simp [h]
      · exact ih l h
    · rename_i hc
      cases hr : splitOnNl rest with
      | nil => exact absurd hr (splitOnNl_ne_nil rest)
      | cons p ps =>
        rw [hr] at hl
        rcases List.mem_cons.1 hl with h | h
        · subst h
          intro hmem
          rcases List.mem_cons.1 hmem with h | h
          · exact hc h.symm
          · exact ih p (hr ▸ List.mem_cons_self p ps) h
        · exact ih l (hr ▸ List.mem_cons_of_mem p h)

theorem mem_of_mem_splitOnNl (s : List Char) :
    ∀ l ∈ splitOnNl s, ∀ c ∈ l, c ∈ s := by
  induction s with
  | nil =>
    intro l hl
    simp [splitOnNl] at hl
    simp [hl]
  | cons a rest ih =>
    intro l hl c hc
    simp only [splitOnNl] at hl
    split at hl
    · rcases List.mem_cons.1 hl with h | h
      · simp [h] at hc
      · exact List.mem_cons_of_mem a (ih l h c hc)
    · cases hr : splitOnNl rest with
      | nil => exact absurd hr (splitOnNl_ne_nil rest)
      | cons p ps =>
        rw [hr] at hl
        rcases List.mem_cons.1 hl with h | h
        · subst h
          rcases List.mem_cons.1 hc with h | h
          · simp [h]
          · exact List.mem_cons_of_mem a
              (ih p (hr ▸ List.mem_cons_self p ps) c h)
        · exact List.mem_cons_of_mem a
            (ih l (hr ▸ List.mem_cons_of_mem p h) c hc)

theorem splitOnNl_singleton (s : List Char) (h : '\n' ∉ s) : splitOnNl s = [s] := by
  induction s with
  | nil => rfl
  | cons c rest ih =>
    have hc : ¬ c = '\n' := fun hh => h (hh ▸ List.mem_cons_self c rest)
    have hrest : '\n' ∉ rest := fun hh => h (List.mem_cons_of_mem c hh)
    simp only [splitOnNl, if_neg hc, ih hrest]

theorem splitOnNl_append (l t : List Char) (h : '\n' ∉ l) :
    splitOnNl (l ++ '\n' :: t) = l :: splitOnNl t := by
  induction l with
  | nil => simp [splitOnNl]
  | cons c l ih =>
    have hc : ¬ c = '\n' := fun hh => h (hh ▸ List.mem_cons_self c l)
    have hl : '\n' ∉ l := fun hh => h (List.mem_cons_of_mem c hh)
    simp only [List.cons_append, splitOnNl, if_neg hc]
    rw [show List.append l ('\n' :: t) = l ++ '\n' :: t from rfl, ih hl]

theorem splitOnNl_unsplit :
    ∀ ps : List (List Char), ps ≠ [] → (∀ p ∈ ps, '\n' ∉ p) →
      splitOnNl (unsplit ps) = ps := by
  intro ps
  induction ps with
  | nil => intro h; exact absurd rfl h
  | cons p ps ih =>
    intro _ hmem
    cases ps with
    | nil =>
      simp only [unsplit]
      exact splitOnNl_singleton p (hmem p (List.mem_cons_self p []))
    | cons q qs =>
      have hp : '\n' ∉ p := hmem p (List.mem_cons_self p (q :: qs))
      simp only [unsplit, splitOnNl_append p _ hp]
      rw [ih (by simp) (fun x hx => hmem x (List.mem_cons_of_mem p hx))]

theorem nlJoin_eq_unsplit : ∀ bs : List (List Char), nlJoin bs = unsplit (bs ++ [[]]) := by
  intro bs
  induction bs with
  | nil => rfl
  | cons b bs ih =>
    cases bs with
    | nil => simp [nlJoin, unsplit]
    | cons c cs => simp_all [nlJoin, unsplit]

theorem unsplit_append_nil :
    ∀ ps : List (List Char), ps ≠ [] → unsplit (ps ++ [[]]) = unsplit ps ++ ['\n'] := by
  intro ps
  induction ps with
  | nil => intro h; exact absurd rfl h
  | cons p ps ih =>
    intro _
    cases ps with
    | nil => simp [unsplit]
    | cons q qs =>
      have := ih (by simp)
      simp only [List.cons_append, unsplit] at this ⊢
      simp_all [List.append_assoc]

theorem unsplit_concat :
    ∀ (ps : List (List Char)) (b : List Char), ps ≠ [] →
      unsplit (ps ++ [b]) = unsplit ps ++ '\n' :: b := by
  intro ps
  induction ps with
  | nil => intro b h; exact absurd rfl h
  | cons p ps ih =>
    intro b _
    cases ps with
    | nil => simp [unsplit]
    | cons q qs =>
      have := ih b (by simp)
      simp only [List.cons_append, unsplit] at this ⊢
      simp_all [List.append_assoc]

theorem nlJoin_eq_append (bs : List (List Char)) (h : bs ≠ []) :
    nlJoin bs = unsplit bs ++ ['\n'] := by
  rw [nlJoin_eq_unsplit, unsplit_append_nil bs h]

theorem getLast?_append_singleton {α : Type} (l : List α) (a : α) :
    (l ++ [a]).getLast? = some a := by
  simp

theorem dropLast_append_singleton {α : Type} (l : List α) (a : α) :
    (l ++ [a]).dropLast = l := by
  simp

theorem getLast?_append_right {α : Type} (l l' : List α) (h : l' ≠ []) :
    (l ++ l').getLast? = l'.getLast? := by
  induction l with
  | nil => rfl
  | cons c cs ih =>
    rw [List.cons_append]
    have hne : cs ++ l' ≠ [] := fun hh => h (List.append_eq_nil.1 hh).2
    cases hcs : cs ++ l' with
    | nil => exact absurd hcs hne
    | cons d ds => rw [List.getLast?_cons_cons, ← hcs, ih]

theorem nlJoin_getLast (bs : List (List Char)) (h : bs ≠ []) :
    (nlJoin bs).getLast? = some '\n' := by
  rw [nlJoin_eq_append bs h]
  exact getLast?_append_singleton _ _

theorem dropLast_nlJoin (bs : List (List Char)) (h : bs ≠ []) :
    (nlJoin bs).dropLast = unsplit bs := by
  rw [nlJoin_eq_append bs h]
  exact dropLast_append_singleton _ _

theorem mem_of_getLast?_eq {α : Type} (l : List α) (a : α) (h : l.getLast? = some a) : a ∈ l := by
  induction l with
  | nil => simp [List.getLast?] at h
  | cons c rest ih =>
    cases rest with
    | nil =>
      simp [List.getLast?] at h
      simp [h]
    | cons d ds =>
      rw [List.getLast?_cons_cons] at h
      exact List.mem_cons_of_mem c (ih h)

theorem eq_nil_of_getLast?_eq_none {α : Type} (l : List α) (h : l.getLast? = none) :
    l = [] := by
  induction l with
  | nil => rfl
  | cons c rest ih =>
    cases rest with
    | nil => simp [List.getLast?] at h
    | cons d ds =>
      rw [List.getLast?_cons_cons] at h
      have := ih h
      simp at this

theorem stripCr_eq_self (l : List Char) (h : '\r' ∉ l) : stripCr l = l := by
  unfold stripCr
  split
  · rename_i hl
    exact absurd (mem_of_getLast?_eq l '\r' hl) h
  · rfl

theorem map_stripCr_eq_self (bs : List (List Char)) (h : ∀ b ∈ bs, '\r' ∉ b) :
    bs.map stripCr = bs := by
  induction bs with
  | nil => rfl
  | cons b rest ih =>
    rw [List.map_cons, stripCr_eq_self b (h b (List.mem_cons_self b rest)),
      ih (fun x hx => h x (List.mem_cons_of_mem b hx))]

theorem two_le_length_splitOnNl (s : List Char) (h : '\n' ∈ s) :
    2 ≤ (splitOnNl s).length := by
  induction s with
  | nil => simp at h
  | cons c rest ih =>
    simp only [splitOnNl]
    split
    · have := List.length_pos.2 (splitOnNl_ne_nil rest)
      simp only [List.length_cons]
      omega
    · rename_i hc
      rcases List.mem_cons.1 h with h1 | h1
      · exact absurd h1.symm hc
      · cases hr : splitOnNl rest with
        | nil => exact absurd hr (splitOnNl_ne_nil rest)
        | cons p ps =>
          have := ih h1
          rw [hr] at this
          simpa using this

/-! Facts about tokenization and the per-line scanner. -/

theorem splitWsAux_acc :
    ∀ (rest acc : List Char), acc ≠ [] →
      ∃ t ts, splitWsAux rest acc = (acc.reverse ++ t) :: ts := by
  intro rest
  induction rest with
  | nil =>
    intro acc hacc
    refine ⟨[], [], ?_⟩
    simp [splitWsAux, hacc]
  | cons c rest ih =>
    intro acc hacc
    simp only [splitWsAux]
    split
    · rw [if_neg (by simpa using hacc)]
      exact ⟨[], splitWsAux rest [], by simp⟩
    · obtain ⟨t, ts, ht⟩ := ih (c :: acc) (by simp)
      refine ⟨c :: t, ts, ?_⟩
      rw [ht]
      simp

theorem split_whitespace_head_at (s : List Char) (h : s.head? = some '@') :
    ∃ t ts, split_whitespace s = ('@' :: t) :: ts := by
  cases s with
  | nil => simp at h
  | cons c rest =>
    have hc : c = '@' := by simpa using h
    subst hc
    unfold split_whitespace splitWsAux
    rw [if_neg (by decide : ¬ isUnicodeWs '@' = true)]
    obtain ⟨t, ts, ht⟩ := splitWsAux_acc rest ['@'] (by simp)
    exact ⟨t, ts, by simpa using ht⟩

theorem collect_ok_ne_nil (line : List Char) (n : Nat) (t : List Char)
    (ts : List (List Char)) (scopes : List (List Char))
    (h : collect_scopes line n (('@' :: t) :: ts) = .ok scopes) : scopes ≠ [] := by
  simp only [collect_scopes, List.head?] at h
  rw [if_pos trivial] at h
  split at h
  · exact absurd h (by simp)
  · split at h
    · exact absurd h (by simp)
    · rename_i heq
      simp only [Except.ok.injEq] at h
      subst h
      simp

theorem collect_trimmed_ne_nil (line : List Char) (n : Nat) (scopes : List (List Char))
    (hat : (trim_start line).head? = some '@')
    (h : collect_scopes line n (split_whitespace (trim_start line)) = .ok scopes) :
    scopes ≠ [] := by
  obtain ⟨t, ts, ht⟩ := split_whitespace_head_at (trim_start line) hat
  rw [ht] at h
  exact collect_ok_ne_nil line n t ts scopes h

theorem process_line_cases (target : List Char) (st : ScanState) (line : List Char)
    (st' : ScanState) (chunk : List Char)
    (h : process_line target st line = .ok (st', chunk)) :
    (∃ scopes, (trim_start line).head? = some '@' ∧
        collect_scopes line (st.line_number + 1) (split_whitespace (trim_start line)) =
          .ok scopes ∧
        scopes ≠ [] ∧
        st' = ⟨scopes, include_pred target scopes, st.line_number + 1⟩ ∧ chunk = ['\n']) ∨
    ((trim_start line).head? ≠ some '@' ∧
        st' = ⟨st.current_scopes, st.include_content, st.line_number + 1⟩ ∧
        chunk = (if st.include_content then line else []) ++ ['\n']) := by
  unfold process_line at h
  split at h
  · rename_i hat
    split at h
    · exact absurd h (by simp)
    · rename_i scopes hcol
      split at h
      · rename_i hemp
        exact absurd (List.isEmpty_iff.1 hemp)
          (collect_trimmed_ne_nil line (st.line_number + 1) scopes hat hcol)
      · rename_i hemp
        left
        refine ⟨scopes, hat, hcol, fun hh => hemp (by simp [hh]), ?_, ?_⟩
        · exact (Prod.mk.injEq _ _ _ _ ▸ Except.ok.inj h).1.symm
        · exact (Prod.mk.injEq _ _ _ _ ▸ Except.ok.inj h).2.symm
  · rename_i hat
    right
    refine ⟨hat, ?_, ?_⟩
    · exact (Prod.mk.injEq _ _ _ _ ▸ Except.ok.inj h).1.symm
    · exact (Prod.mk.injEq _ _ _ _ ▸ Except.ok.inj h).2.symm

/-! Facts about `rustLines`. -/

theorem mem_of_mem_stripCr (l : List Char) (c : Char) (h : c ∈ stripCr l) : c ∈ l := by
  unfold stripCr at h
  split at h
  · exact (List.dropLast_sublist l).subset h
  · exact h

theorem mem_rustLines_cases (s : List Char) (l : List Char) (h : l ∈ rustLines s) :
    ∃ l', l' ∈ splitOnNl s ∧ (l = stripCr l' ∨ l = l') := by
  unfold rustLines at h
  split at h
  · simp at h
  · split at h
    · obtain ⟨x, hx, hxl⟩ := List.mem_map.1 h
      exact ⟨x, (List.dropLast_sublist _).subset hx, Or.inl hxl.symm⟩
    · rcases List.mem_append.1 h with h1 | h1
      · obtain ⟨x, hx, hxl⟩ := List.mem_map.1 h1
        exact ⟨x, (List.dropLast_sublist _).subset hx, Or.inl hxl.symm⟩
      · have hl : l = (splitOnNl s).getLast?.getD [] := by simpa using h1
        cases hg : (splitOnNl s).getLast? with
        | none =>
          exact absurd (eq_nil_of_getLast?_eq_none _ hg) (splitOnNl_ne_nil s)
        | some x =>
          refine ⟨x, mem_of_getLast?_eq _ x hg, Or.inr ?_⟩
          rw [hl, hg]
          rfl

theorem nl_not_mem_rustLines (s : List Char) (l : List Char) (h : l ∈ rustLines s) :
    '\n' ∉ l := by
  obtain ⟨l', hl', hcase⟩ := mem_rustLines_cases s l h
  have hnl := nl_not_mem_splitOnNl s l' hl'
  rcases hcase with rfl | rfl
  · exact fun hc => hnl (mem_of_mem_stripCr l' '\n' hc)
  · exact hnl

theorem mem_rustLines_mem (s : List Char) (l : List Char) (c : Char)
    (h : l ∈ rustLines s) (hc : c ∈ l) : c ∈ s := by
  obtain ⟨l', hl', hcase⟩ := mem_rustLines_cases s l h
  rcases hcase with rfl | rfl
  · exact mem_of_mem_splitOnNl s l' hl' c (mem_of_mem_stripCr l' c hc)
  · exact mem_of_mem_splitOnNl s _ hl' c hc

theorem length_rustLines_ends_nl (s : List Char) (h : s.getLast? = some '\n') :
    (rustLines s).length = (splitOnNl s).length - 1 := by
  have hne : s ≠ [] := by
    intro hh
    rw [hh] at h
    simp at h
  unfold rustLines
  rw [if_neg hne, if_pos h]
  simp

theorem length_rustLines_not_nl (s : List Char) (hne : s ≠ [])
    (h : ¬ s.getLast? = some '\n') : (rustLines s).length = (splitOnNl s).length := by
  unfold rustLines
  rw [if_neg hne, if_neg h]
  have := List.length_pos.2 (splitOnNl_ne_nil s)
  simp only [List.length_append, List.length_map, List.length_dropLast, List.length_cons,
    List.length_nil]
  omega

theorem rustLines_singleton (s : List Char) (hne : s ≠ []) (h : '\n' ∉ s) :
    rustLines s = [s] := by
  have hlast : ¬ s.getLast? = some '\n' := by
    intro hh
    exact h (mem_of_getLast?_eq s '\n' hh)
  unfold rustLines
  rw [if_neg hne, if_neg hlast, splitOnNl_singleton s h]
  simp

theorem rustLines_ne_nil (s : List Char) (h : s ≠ []) : rustLines s ≠ [] := by
  intro hh
  have hlen : (rustLines s).length = 0 := by rw [hh]; rfl
  by_cases hl : s.getLast? = some '\n'
  · rw [length_rustLines_ends_nl s hl] at hlen
    have : '\n' ∈ s := mem_of_getLast?_eq s '\n' hl
    have := two_le_length_splitOnNl s this
    omega
  · rw [length_rustLines_not_nl s h hl] at hlen
    have := List.length_pos.2 (splitOnNl_ne_nil s)
    omega

/-! Structure of successful and failing runs of the extraction loop. -/

theorem process_lines_shape (target : List Char) :
    ∀ (ls : List (List Char)) (st : ScanState) (out : List Char),
      process_lines target st ls = .ok out →
      ∃ bodies : List (List Char), out = nlJoin bodies ∧ bodies.length = ls.length ∧
        ∀ b ∈ bodies, b = [] ∨ (b ∈ ls ∧ (trim_start b).head? ≠ some '@') := by
  intro ls
  induction ls with
  | nil =>
    intro st out h
    simp only [process_lines] at h
    refine ⟨[], ?_, rfl, by simp⟩
    exact (Except.ok.inj h).symm
  | cons line rest ih =>
    intro st out h
    simp only [process_lines] at h
    cases hpl : process_line target st line with
    | error e => rw [hpl] at h; simp at h
    | ok p =>
      obtain ⟨st', chunk⟩ := p
      simp only [hpl] at h
      cases hrest : process_lines target st' rest with
      | error e => rw [hrest] at h; simp at h
      | ok out2 =>
        simp only [hrest, Except.ok.injEq] at h
        subst h
        obtain ⟨bodies, hb1, hb2, hb3⟩ := ih st' out2 hrest
        rcases process_line_cases target st line st' chunk hpl with
          ⟨scopes, hat, hcol, hne, hst, hchunk⟩ | ⟨hat, hst, hchunk⟩
        · refine ⟨[] :: bodies, ?_, by simp [hb2], ?_⟩
          · simp [hchunk, nlJoin, hb1]
          · intro b hb
            rcases List.mem_cons.1 hb with h | h
            · exact Or.inl h
            · rcases hb3 b h with h1 | ⟨h1, h2⟩
              · exact Or.inl h1
              · exact Or.inr ⟨List.mem_cons_of_mem line h1, h2⟩
        · cases hinc : st.include_content with
          | false =>
            rw [hinc] at hchunk
            refine ⟨[] :: bodies, ?_, by simp [hb2], ?_⟩
            · simp [hchunk, nlJoin, hb1]
            · intro b hb
              rcases List.mem_cons.1 hb with h | h
              · exact Or.inl h
              · rcases hb3 b h with h1 | ⟨h1, h2⟩
                · exact Or.inl h1
                · exact Or.inr ⟨List.mem_cons_of_mem line h1, h2⟩
          | true =>
            rw [hinc] at hchunk
            refine ⟨line :: bodies, ?_, by simp [hb2], ?_⟩
            · simp [hchunk, nlJoin, hb1]
            · intro b hb
              rcases List.mem_cons.1 hb with h | h
              · exact Or.inr ⟨h ▸ List.mem_cons_self line rest, h ▸ hat⟩
              · rcases hb3 b h with h1 | ⟨h1, h2⟩
                · exact Or.inl h1
                · exact Or.inr ⟨List.mem_cons_of_mem line h1, h2⟩

theorem process_lines_all_content (target : List Char) :
    ∀ (ls : List (List Char)) (st : ScanState),
      st.include_content = true →
      (∀ l ∈ ls, ¬ (trim_start l).head? = some '@') →
      process_lines target st ls = .ok (nlJoin ls) := by
  intro ls
  induction ls with
  | nil => intro st _ _; rfl
  | cons line rest ih =>
    intro st hinc hdecl
    have hat : ¬ (trim_start line).head? = some '@' :=
      hdecl line (List.mem_cons_self line rest)
    have hpl : process_line target st line =
        .ok (⟨st.current_scopes, st.include_content, st.line_number + 1⟩, line ++ ['\n']) := by
      unfold process_line
      rw [if_neg hat, hinc]
      simp
    have hrest := ih ⟨st.current_scopes, st.include_content, st.line_number + 1⟩ hinc
      (fun l hl => hdecl l (List.mem_cons_of_mem line hl))
    simp only [process_lines, hpl, hrest, nlJoin]
    simp

theorem collect_scopes_error (line : List Char) (n : Nat) :
    ∀ (toks : List (List Char)) (e : QuillError),
      collect_scopes line n toks = .error e →
      ∃ nm, e = .InvalidScopeName nm n (atColumn line) := by
  intro toks
  induction toks with
  | nil => intro e h; simp [collect_scopes] at h
  | cons token rest ih =>
    intro e h
    simp only [collect_scopes] at h
    split at h
    · split at h
      · exact ⟨token.drop 1, (Except.error.inj h).symm⟩
      · split at h
        · rename_i e' heq
          have he : e' = e := Except.error.inj h
          exact he ▸ ih e' heq
        · simp at h
    · exact ih e h

theorem process_line_error (target : List Char) (st : ScanState) (line : List Char)
    (e : QuillError) (h : process_line target st line = .error e) :
    ∃ nm l c, e = .InvalidScopeName nm l c := by
  unfold process_line at h
  split at h
  · split at h
    · rename_i e' heq
      have he : e' = e := Except.error.inj h
      obtain ⟨nm, hnm⟩ := collect_scopes_error line (st.line_number + 1) _ e' heq
      exact ⟨nm, st.line_number + 1, atColumn line, he ▸ hnm⟩
    · split at h <;> simp at h
  · simp at h

theorem process_lines_error_shape (target : List Char) :
    ∀ (ls : List (List Char)) (st : ScanState) (e : QuillError),
      process_lines target st ls = .error e →
      ∃ nm l c, e = .InvalidScopeName nm l c := by
  intro ls
  induction ls with
  | nil => intro st e h; simp [process_lines] at h
  | cons line rest ih =>
    intro st e h
    simp only [process_lines] at h
    cases hpl : process_line target st line with
    | error e' =>
      rw [hpl] at h
      simp only [Except.error.injEq] at h
      exact h ▸ process_line_error target st line e' hpl
    | ok p =>
      obtain ⟨st', chunk⟩ := p
      simp only [hpl] at h
      cases hrest : process_lines target st' rest with
      | error e' =>
        simp only [hrest, Except.error.injEq] at h
        exact h ▸ ih st' e' hrest
      | ok out2 => simp [hrest] at h

theorem collect_of_firstBad (line : List Char) (n : Nat) :
    ∀ (toks : List (List Char)) (name : List Char),
      firstBadToken toks = some name →
      collect_scopes line n toks = .error (.InvalidScopeName name n (atColumn line)) := by
  intro toks
  induction toks with
  | nil => intro name h; simp [firstBadToken] at h
  | cons token rest ih =>
    intro name h
    simp only [firstBadToken] at h
    simp only [collect_scopes]
    split at h
    · rename_i hhead
      rw [if_pos hhead]
      split at h
      · rename_i hval
        rw [if_pos hval]
        simp only [Option.some.injEq] at h
        rw [h]
      · rename_i hval
        rw [if_neg hval, ih name h]
    · rename_i hhead
      rw [if_neg hhead]
      exact ih name h

theorem collect_ok_of_none (line : List Char) (n : Nat) :
    ∀ toks : List (List Char), firstBadToken toks = none →
      ∃ scopes, collect_scopes line n toks = .ok scopes := by
  intro toks
  induction toks with
  | nil => intro _; exact ⟨[], rfl⟩
  | cons token rest ih =>
    intro h
    simp only [firstBadToken] at h
    simp only [collect_scopes]
    split at h
    · rename_i hhead
      rw [if_pos hhead]
      split at h
      · simp at h
      · rename_i hval
        rw [if_neg hval]
        obtain ⟨scopes, hs⟩ := ih h
        exact ⟨token.drop 1 :: scopes, by rw [hs]⟩
    · rename_i hhead
      rw [if_neg hhead]
      exact ih h

theorem process_lines_firstInvalid (target : List Char) :
    ∀ (ls : List (List Char)) (st : ScanState) (name : List Char) (l c : Nat),
      firstInvalidScope st.line_number ls = some (name, l, c) →
      process_lines target st ls = .error (.InvalidScopeName name l c) := by
  intro ls
  induction ls with
  | nil => intro st name l c h; simp [firstInvalidScope] at h
  | cons line rest ih =>
    intro st name l c h
    simp only [firstInvalidScope] at h
    split at h
    · rename_i hat
      cases hbad : firstBadToken (split_whitespace (trim_start line)) with
      | some nm =>
        rw [hbad] at h
        simp only [Option.some.injEq, Prod.mk.injEq] at h
        obtain ⟨h1, h2, h3⟩ := h
        have hcol := collect_of_firstBad line (st.line_number + 1) _ nm hbad
        rw [h1, h2, h3] at hcol
        simp only [process_lines, process_line, if_pos hat, h2, hcol]
      | none =>
        rw [hbad] at h
        obtain ⟨scopes, hok⟩ := collect_ok_of_none line (st.line_number + 1) _ hbad
        have hne := collect_trimmed_ne_nil line (st.line_number + 1) scopes hat hok
        have hpl : process_line target st line =
            .ok (⟨scopes, include_pred target scopes, st.line_number + 1⟩, ['\n']) := by
          unfold process_line
          rw [if_pos hat]
          simp only [hok]
          rw [if_neg (fun hh => hne (List.isEmpty_iff.1 hh))]
        have := ih ⟨scopes, include_pred target scopes, st.line_number + 1⟩ name l c h
        simp only [process_lines, hpl, this]
    · rename_i hat
      have hpl : process_line target st line =
          .ok (⟨st.current_scopes, st.include_content, st.line_number + 1⟩,
               (if st.include_content then line else []) ++ ['\n']) := by
        unfold process_line
        rw [if_neg hat]
      have := ih ⟨st.current_scopes, st.include_content, st.line_number + 1⟩ name l c h
      simp only [process_lines, hpl, this]

theorem extract_ok_elim (text : List Char) (scope : Scope) (out : List Char)
    (h : extract_scope text scope = .ok out) :
    ∃ result, process_lines scope.intoStr initState (rustLines text) = .ok result ∧
      out = (if text.getLast? ≠ some '\n' ∧ result.getLast? = some '\n'
             then result.dropLast else result) ∧
      ¬ (scope.intoStr ≠ globalName ∧ is_valid_scope_name scope.intoStr = false) := by
  unfold extract_scope at h
  split at h
  · simp at h
  · rename_i hcond
    cases hr : process_lines scope.intoStr initState (rustLines text) with
    | error e => rw [hr] at h; simp at h
    | ok result =>
      rw [hr] at h
      exact ⟨result, rfl, (Except.ok.inj h).symm, hcond⟩

/-! Sanity checks of the embedding against the crate documentation. -/

example : ("ab".data = ['a', 'b']) := rfl

example : rustLines "a\r\nb\n".data = [['a'], ['b']] := by decide

example : rustLines "a\nb".data = [['a'], ['b']] := by decide

example : rustLines "".data = [] := by decide

example : extract_scope "@".data (Scope.DefinedScope "x".data) =
    .error (.InvalidScopeName [] 1 1) := by decide

/-- The worked example from the crate documentation. -/
example :
    extract_scope "\ntitle = \"App\"\n\n@dev\ndebug = true\n\n@prod\noptimized = true\n\n@dev @test\nextra_checks = true\n\n@global\ndo_tests = true".data
      (Scope.DefinedScope "dev".data) =
    .ok "\ntitle = \"App\"\n\n\ndebug = true\n\n\n\n\n\nextra_checks = true\n\n\ndo_tests = true".data := by
  decide

theorem bodies_nl_free (text : List Char) (bodies : List (List Char))
    (hb3 : ∀ b ∈ bodies, b = [] ∨ (b ∈ rustLines text ∧ (trim_start b).head? ≠ some '@')) :
    ∀ b ∈ bodies, '\n' ∉ b := by
  intro b hb
  rcases hb3 b hb with rfl | ⟨hmem, _⟩
  · simp
  · exact nl_not_mem_rustLines text b hmem

theorem splitOnNl_nlJoin (bodies : List (List Char))
    (hbnl : ∀ b ∈ bodies, '\n' ∉ b) :
    splitOnNl (nlJoin bodies) = bodies ++ [[]] := by
  rw [nlJoin_eq_unsplit]
  refine splitOnNl_unsplit (bodies ++ [[]]) (by simp) ?_
  intro p hp
  rcases List.mem_append.1 hp with h1 | h1
  · exact hbnl p h1
  · simp at h1
    simp [h1]

theorem extract_of_clean (scope : Scope) (out : List Char) (bs : List (List Char))
    (hcond : ¬ (scope.intoStr ≠ globalName ∧ is_valid_scope_name scope.intoStr = false))
    (hlines : rustLines out = bs)
    (hdecl : ∀ b ∈ bs, ¬ (trim_start b).head? = some '@')
    (hfix : (if out.getLast? ≠ some '\n' ∧ (nlJoin bs).getLast? = some '\n'
             then (nlJoin bs).dropLast else nlJoin bs) = out) :
    extract_scope out scope = .ok out := by
  unfold extract_scope
  rw [if_neg hcond, hlines]
  simp only [process_lines_all_content scope.intoStr bs initState rfl hdecl]
  rw [hfix]

/-! The claims. -/

/-- C10: for every input text, extracting with the sentinel global scope
returns exactly the same result (success value or error) as extracting
with the explicit defined-scope name `"global"`: both convert to the same
target name string before any other processing. -/
theorem C10_global_sentinel_interchangeable (text : List Char) :
    extract_scope text Scope.Global = extract_scope text (Scope.DefinedScope globalName) :=
  rfl

/-- C5: a target scope other than the literal `"global"` whose name fails
the character-set rule (empty, or a character outside ASCII letters,
digits, `_` and `-`) makes `extract_scope` return `InvalidScopeArgument`
carrying that name, uniformly in the input text (so without scanning the
file); and a target whose name is `"global"` never yields
`InvalidScopeArgument`. -/
theorem C5_invalid_scope_argument (scope : Scope) (text : List Char) :
    (scope.intoStr ≠ globalName → is_valid_scope_name scope.intoStr = false →
      extract_scope text scope = .error (.InvalidScopeArgument scope.intoStr)) ∧
    (scope.intoStr = globalName →
      ∀ s, extract_scope text scope ≠ .error (.InvalidScopeArgument s)) := by
  constructor
  · intro h1 h2
    unfold extract_scope
    rw [if_pos ⟨h1, h2⟩]
  · intro h1 s
    unfold extract_scope
    rw [if_neg (fun hh => hh.1 h1)]
    cases hr : process_lines scope.intoStr initState (rustLines text) with
    | error e =>
      obtain ⟨nm, l, c, he⟩ := process_lines_error_shape scope.intoStr (rustLines text)
        initState e hr
      simp [he]
    | ok result => simp

/-- Witness for C5 at a concrete invalid target containing a space. -/
theorem C5_witness :
    extract_scope "x = 1".data (Scope.DefinedScope "ba d".data) =
      .error (.InvalidScopeArgument "ba d".data) :=
  (C5_invalid_scope_argument (Scope.DefinedScope "ba d".data) "x = 1".data).1
    (by decide) (by decide)

/-- C2 counterexample: a line consisting of a lone `@` has a trimmed form
that starts with `@` and contains no well-formed `@token`, yet
`extract_scope` does fail on it, with `InvalidScopeName` for the empty
name at line 1, column 1; it is not judged for inclusion as ordinary
content. -/
theorem C2_counterexample :
    (trim_start "@".data).head? = some '@' ∧
    firstBadToken (split_whitespace (trim_start "@".data)) = some [] ∧
    extract_scope "@".data (Scope.DefinedScope "x".data) =
      .error (.InvalidScopeName [] 1 1) := by
  decide

/-- C2 (amended): a line whose trimmed form starts with `@` is never
treated as ordinary content: when the scanner survives it, the line acted
as a declaration, emitting a blank line and fully replacing the active
scope set with the non-empty list of collected names (a line with no
well-formed `@token`, such as a lone `@`, instead aborts the extraction
with `InvalidScopeName` at its first bad token, because the first
whitespace token of such a line necessarily starts with `@`). -/
theorem C2_amended_at_line_never_content (target : List Char) (st : ScanState)
    (line : List Char) (st' : ScanState) (chunk : List Char)
    (hat : (trim_start line).head? = some '@')
    (h : process_line target st line = .ok (st', chunk)) :
    chunk = ['\n'] ∧
    ∃ scopes, scopes ≠ [] ∧ st'.current_scopes = scopes ∧
      collect_scopes line (st.line_number + 1) (split_whitespace (trim_start line)) =
        .ok scopes := by
  rcases process_line_cases target st line st' chunk h with
    ⟨scopes, _, hcol, hne, hst, hchunk⟩ | ⟨hat2, _, _⟩
  · exact ⟨hchunk, scopes, hne, by rw [hst], hcol⟩
  · exact absurd hat hat2

/-- Witness for the amended C2 at a concrete declaration line. -/
theorem C2_witness :
    (['\n'] : List Char) = ['\n'] ∧
    ∃ scopes, scopes ≠ [] ∧
      (⟨["dev".data], false, 1⟩ : ScanState).current_scopes = scopes ∧
      collect_scopes "@dev".data (initState.line_number + 1)
        (split_whitespace (trim_start "@dev".data)) = .ok scopes :=
  C2_amended_at_line_never_content "x".data initState "@dev".data
    ⟨["dev".data], false, 1⟩ ['\n'] (by decide) (by decide)

/-- C3: given the invariant that the inclusion flag equals the inclusion
predicate of the active scope set (true initially, preserved by every
line), a content line contributes its content exactly when the active
scope set contains the target, or contains `"global"`, or the target is
`"global"`; and since the initial active set is `["global"]`, the
predicate is true initially for every target, so every line preceding the
first declaration is included. -/
theorem C3_content_inclusion (target : List Char) (st : ScanState) (line : List Char)
    (st' : ScanState) (chunk : List Char)
    (h : process_line target st line = .ok (st', chunk))
    (hinv : st.include_content = include_pred target st.current_scopes) :
    st'.include_content = include_pred target st'.current_scopes ∧
    ((trim_start line).head? ≠ some '@' →
      chunk = (if include_pred target st.current_scopes then line else []) ++ ['\n']) ∧
    initState.include_content = true ∧
    include_pred target initState.current_scopes = true := by
  have hg : ([globalName] : List (List Char)).contains globalName = true := by decide
  have hinit : include_pred target initState.current_scopes = true := by
    simp [include_pred, initState, hg]
  rcases process_line_cases target st line st' chunk h with
    ⟨scopes, hat, hcol, hne, hst, hchunk⟩ | ⟨hat, hst, hchunk⟩
  · refine ⟨?_, fun hc => absurd hat hc, rfl, hinit⟩
    rw [hst]
  · refine ⟨?_, fun _ => ?_, rfl, hinit⟩
    · rw [hst]
      exact hinv
    · rw [hchunk, hinv]

/-- Witness for C3 at a concrete content line in the initial state. -/
theorem C3_witness :
    ((⟨[globalName], true, 1⟩ : ScanState).include_content =
      include_pred "dev".data (⟨[globalName], true, 1⟩ : ScanState).current_scopes) ∧
    ((trim_start "x".data).head? ≠ some '@' →
      "x\n".data =
        (if include_pred "dev".data initState.current_scopes then "x".data else []) ++
          ['\n']) ∧
    initState.include_content = true ∧
    include_pred "dev".data initState.current_scopes = true :=
  C3_content_inclusion "dev".data initState "x".data ⟨[globalName], true, 1⟩ "x\n".data
    (by decide) (by decide)

/-- C6: the per-line emission of the assembler: a declaration line emits
an empty line (just the terminator); a content line emits the original
line content verbatim followed by the terminator when the inclusion flag
is set, and just the terminator otherwise.  The full output of
`extract_scope` is the concatenation of these per-line emissions,
followed by the trailing-newline adjustment. -/
theorem C6_verbatim_or_blank (target : List Char) (st : ScanState) (line : List Char)
    (st' : ScanState) (chunk : List Char)
    (h : process_line target st line = .ok (st', chunk)) :
    ((trim_start line).head? = some '@' → chunk = ['\n']) ∧
    ((trim_start line).head? ≠ some '@' →
      chunk = (if st.include_content then line else []) ++ ['\n']) := by
  rcases process_line_cases target st line st' chunk h with
    ⟨scopes, hat, hcol, hne, hst, hchunk⟩ | ⟨hat, hst, hchunk⟩
  · exact ⟨fun _ => hchunk, fun hc => absurd hat hc⟩
  · exact ⟨fun hc => absurd hc hat, fun _ => hchunk⟩

/-- Witness for C6 at a concrete excluded content line. -/
theorem C6_witness :
    ((trim_start "y".data).head? = some '@' → (['\n'] : List Char) = ['\n']) ∧
    ((trim_start "y".data).head? ≠ some '@' →
      (['\n'] : List Char) =
        (if (⟨["dev".data], false, 3⟩ : ScanState).include_content then "y".data else []) ++
          ['\n']) :=
  C6_verbatim_or_blank "prod".data ⟨["dev".data], false, 3⟩ "y".data
    ⟨["dev".data], false, 4⟩ ['\n'] (by decide)

/-- C9: the active scope set is never empty: it starts as `["global"]`,
and a successful line step either leaves it unchanged (content line) or
fully replaces it with the non-empty list of names collected from the
declaration line — it is never appended to and never cleared. -/
theorem C9_active_scopes_nonempty (target : List Char) (st : ScanState) (line : List Char)
    (st' : ScanState) (chunk : List Char)
    (h : process_line target st line = .ok (st', chunk))
    (hne : st.current_scopes ≠ []) :
    st'.current_scopes ≠ [] ∧ initState.current_scopes = [globalName] ∧
    (st'.current_scopes = st.current_scopes ∨
      ∃ scopes, scopes ≠ [] ∧
        collect_scopes line (st.line_number + 1) (split_whitespace (trim_start line)) =
          .ok scopes ∧
        st'.current_scopes = scopes) := by
  rcases process_line_cases target st line st' chunk h with
    ⟨scopes, hat, hcol, hsne, hst, hchunk⟩ | ⟨hat, hst, hchunk⟩
  · refine ⟨?_, rfl, Or.inr ⟨scopes, hsne, hcol, by rw [hst]⟩⟩
    rw [hst]
    exact hsne
  · refine ⟨?_, rfl, Or.inl (by rw [hst])⟩
    rw [hst]
    exact hne

/-- Witness for C9 at a concrete declaration line. -/
theorem C9_witness :
    (⟨["dev".data], false, 1⟩ : ScanState).current_scopes ≠ [] ∧
    initState.current_scopes = [globalName] ∧
    ((⟨["dev".data], false, 1⟩ : ScanState).current_scopes = initState.current_scopes ∨
      ∃ scopes, scopes ≠ [] ∧
        collect_scopes "@dev".data (initState.line_number + 1)
          (split_whitespace (trim_start "@dev".data)) = .ok scopes ∧
        (⟨["dev".data], false, 1⟩ : ScanState).current_scopes = scopes) :=
  C9_active_scopes_nonempty "x".data initState "@dev".data
    ⟨["dev".data], false, 1⟩ ['\n'] (by decide) (by decide)

/-- C4: when the target passes validation (or is `"global"`) and the text
contains an invalid scope token in a declaration line, `extract_scope`
aborts at the first such token — scanning lines top to bottom and tokens
left to right, as captured by `firstInvalidScope`, which is written from
the claim's words — and returns `InvalidScopeName` carrying the offending
name, the 1-indexed line number, and the 1-indexed column (a byte
position, as in the source's `line.find`) of the first `@` character of
that raw, untrimmed line.  No partial output exists: the result is the
error alone. -/
theorem C4_first_invalid_token_error (text : List Char) (scope : Scope)
    (name : List Char) (l c : Nat)
    (htarget : scope.intoStr = globalName ∨ is_valid_scope_name scope.intoStr = true)
    (h : firstInvalidScope 0 (rustLines text) = some (name, l, c)) :
    extract_scope text scope = .error (.InvalidScopeName name l c) := by
  have hcond : ¬ (scope.intoStr ≠ globalName ∧ is_valid_scope_name scope.intoStr = false) := by
    rcases htarget with h1 | h1
    · exact fun hh => hh.1 h1
    · intro hh
      rw [h1] at hh
      exact absurd hh.2 (by decide)
  unfold extract_scope
  rw [if_neg hcond]
  have hrun := process_lines_firstInvalid scope.intoStr (rustLines text) initState name l c h
  simp only [hrun]

/-- Witness for C4 at a concrete text whose second line holds the first
invalid token. -/
theorem C4_witness :
    extract_scope "@ok\n@b!\nx".data (Scope.DefinedScope "dev".data) =
      .error (.InvalidScopeName "b!".data 2 1) :=
  C4_first_invalid_token_error "@ok\n@b!\nx".data (Scope.DefinedScope "dev".data)
    "b!".data 2 1 (Or.inr (by decide)) (by decide)

/-- C1: a successful extraction has exactly as many line positions as its
input: every input line yields exactly one output line (its content, or
an empty line), and the trailing-newline adjustment strips exactly one
terminator exactly when the loop added one the input did not have.
Line positions are counted as `line_count`: one more than the number of
newline characters, the count under which no line is ever removed or
added. -/
theorem C1_line_count_preserved (text : List Char) (scope : Scope) (out : List Char)
    (h : extract_scope text scope = .ok out) : line_count out = line_count text := by
  obtain ⟨result, hrun, hout, _⟩ := extract_ok_elim text scope out h
  obtain ⟨bodies, hb1, hb2, hb3⟩ :=
    process_lines_shape scope.intoStr (rustLines text) initState result hrun
  subst hb1
  have hbnl := bodies_nl_free text bodies hb3
  by_cases htext : text = []
  · subst htext
    have hb0 : bodies = [] := by
      have : (rustLines ([] : List Char)).length = 0 := rfl
      rw [this] at hb2
      exact List.eq_nil_of_length_eq_zero hb2
    subst hb0
    simp [nlJoin] at hout
    rw [hout]
  · have hLb : bodies ≠ [] := by
      intro hb0
      rw [hb0] at hb2
      have := List.length_pos.2 (rustLines_ne_nil text htext)
      simp at hb2
      omega
    by_cases hnl : text.getLast? = some '\n'
    · have hcond : ¬ (text.getLast? ≠ some '\n' ∧ (nlJoin bodies).getLast? = some '\n') :=
        fun hh => hh.1 hnl
      rw [if_neg hcond] at hout
      have hlen := length_rustLines_ends_nl text hnl
      have h2 := two_le_length_splitOnNl text (mem_of_getLast?_eq text '\n' hnl)
      unfold line_count
      rw [hout, splitOnNl_nlJoin bodies hbnl]
      rw [hlen] at hb2
      simp only [List.length_append, List.length_cons, List.length_nil]
      omega
    · have hends : (nlJoin bodies).getLast? = some '\n' := nlJoin_getLast bodies hLb
      rw [if_pos ⟨hnl, hends⟩, dropLast_nlJoin bodies hLb] at hout
      have hlen := length_rustLines_not_nl text htext hnl
      unfold line_count
      rw [hout, splitOnNl_unsplit bodies hLb hbnl]
      omega

/-- Witness for C1 at a concrete successful extraction. -/
theorem C1_witness : line_count "a\n\nb".data = line_count "a\n@dev\nb".data :=
  C1_line_count_preserved "a\n@dev\nb".data (Scope.DefinedScope "dev".data)
    "a\n\nb".data (by decide)

/-- C7 counterexample: on the input `"x\n@d"` (no final terminator) with
target `"d"`, the successful output is `"x\n"`, which does end with a
terminator: the final declaration line was blanked, so the presence of a
final line terminator in the output does not match the input. -/
theorem C7_counterexample :
    extract_scope "x\n@d".data (Scope.DefinedScope "d".data) = .ok "x\n".data ∧
    ¬ ("x\n@d".data.getLast? = some '\n') ∧ "x\n".data.getLast? = some '\n' := by
  decide

/-- C7 (amended): exactly one trailing terminator is stripped when the
input did not end with one but the assembled text does, and nothing is
stripped otherwise; consequently, if the input ends with a line
terminator then so does the successful output, and a single-line input
without any terminator yields an output without one — but an input that
does not end with a terminator can still produce an output that does,
when its final line is blanked. -/
theorem C7_amended_trailing_newline (text : List Char) (scope : Scope) (out : List Char)
    (h : extract_scope text scope = .ok out) :
    (text.getLast? = some '\n' → out.getLast? = some '\n') ∧
    ('\n' ∉ text → ¬ out.getLast? = some '\n') := by
  obtain ⟨result, hrun, hout, _⟩ := extract_ok_elim text scope out h
  obtain ⟨bodies, hb1, hb2, hb3⟩ :=
    process_lines_shape scope.intoStr (rustLines text) initState result hrun
  subst hb1
  constructor
  · intro hnl
    have htext : text ≠ [] := by
      intro hh
      rw [hh] at hnl
      simp at hnl
    have hLb : bodies ≠ [] := by
      intro hb0
      rw [hb0] at hb2
      have := List.length_pos.2 (rustLines_ne_nil text htext)
      simp at hb2
      omega
    have hcond : ¬ (text.getLast? ≠ some '\n' ∧ (nlJoin bodies).getLast? = some '\n') :=
      fun hh => hh.1 hnl
    rw [if_neg hcond] at hout
    rw [hout]
    exact nlJoin_getLast bodies hLb
  · intro hnotin
    have hnl : ¬ text.getLast? = some '\n' :=
      fun hh => hnotin (mem_of_getLast?_eq text '\n' hh)
    by_cases htext : text = []
    · subst htext
      have hb0 : bodies = [] := by
        have : (rustLines ([] : List Char)).length = 0 := rfl
        rw [this] at hb2
        exact List.eq_nil_of_length_eq_zero hb2
      subst hb0
      simp [nlJoin] at hout
      rw [hout]
      simp
    · have hlines := rustLines_singleton text htext hnotin
      rw [hlines] at hb2 hb3
      obtain ⟨b, rfl⟩ : ∃ b, bodies = [b] := by
        cases bodies with
        | nil => simp at hb2
        | cons b bs =>
          cases bs with
          | nil => exact ⟨b, rfl⟩
          | cons c cs => simp at hb2
      have hb_nl : '\n' ∉ b := by
        rcases hb3 b (by simp) with rfl | ⟨hmem, _⟩
        · simp
        · simp at hmem
          rw [hmem]
          exact hnotin
      have hends : (nlJoin [b]).getLast? = some '\n' := nlJoin_getLast [b] (by simp)
      rw [if_pos ⟨hnl, hends⟩, dropLast_nlJoin [b] (by simp)] at hout
      rw [hout]
      intro hh
      exact hb_nl (mem_of_getLast?_eq b '\n' hh)

/-- Witness for the amended C7 at a concrete terminator-ending input. -/
theorem C7_witness : "a\n\n".data.getLast? = some '\n' :=
  (C7_amended_trailing_newline "a\n@d\n".data (Scope.DefinedScope "d".data)
    "a\n\n".data (by decide)).1 (by decide)

/-- C8 counterexample: extraction is not idempotent.  On the input
`"ab\r\r\n"` every scope extraction succeeds with `"ab\r\n"` (the line
iterator strips the final terminator's carriage return, and the loop
re-terminates the line with a bare newline); extracting again turns the
freshly created `"\r\n"` ending into `"\n"`, yielding `"ab\n"`, a
different text. -/
theorem C8_counterexample :
    extract_scope ['a', 'b', '\r', '\r', '\n'] (Scope.DefinedScope "d".data) =
      .ok ['a', 'b', '\r', '\n'] ∧
    extract_scope ['a', 'b', '\r', '\n'] (Scope.DefinedScope "d".data) =
      .ok ['a', 'b', '\n'] ∧
    (['a', 'b', '\n'] : List Char) ≠ ['a', 'b', '\r', '\n'] := by
  decide

/-- C8 (amended): extraction is idempotent on carriage-return-free texts:
for every input containing no `'\r'` character and every target for which
`extract_scope` succeeds, running `extract_scope` again on the extracted
text with the same target returns the extracted text unchanged. -/
theorem C8_amended_idempotent_cr_free (text : List Char) (scope : Scope) (out : List Char)
    (hcr : '\r' ∉ text) (h : extract_scope text scope = .ok out) :
    extract_scope out scope = .ok out := by
  obtain ⟨result, hrun, hout, hcond⟩ := extract_ok_elim text scope out h
  obtain ⟨bodies, hb1, hb2, hb3⟩ :=
    process_lines_shape scope.intoStr (rustLines text) initState result hrun
  subst hb1
  have hbnl := bodies_nl_free text bodies hb3
  have hbcr : ∀ b ∈ bodies, '\r' ∉ b := by
    intro b hb hmem
    rcases hb3 b hb with rfl | ⟨hmem', _⟩
    · simp at hmem
    · exact hcr (mem_rustLines_mem text b '\r' hmem' hmem)
  have hbdecl : ∀ b ∈ bodies, ¬ (trim_start b).head? = some '@' := by
    intro b hb
    rcases hb3 b hb with rfl | ⟨_, h2⟩
    · simp [trim_start]
    · exact h2
  by_cases htext : text = []
  · subst htext
    have hb0 : bodies = [] := by
      have : (rustLines ([] : List Char)).length = 0 := rfl
      rw [this] at hb2
      exact List.eq_nil_of_length_eq_zero hb2
    subst hb0
    simp [nlJoin] at hout
    rw [hout]
    exact extract_of_clean scope [] [] hcond rfl (by simp) (by decide)
  · have hLb : bodies ≠ [] := by
      intro hb0
      rw [hb0] at hb2
      have := List.length_pos.2 (rustLines_ne_nil text htext)
      simp at hb2
      omega
    have hsplit : splitOnNl (nlJoin bodies) = bodies ++ [[]] :=
      splitOnNl_nlJoin bodies hbnl
    by_cases hnl : text.getLast? = some '\n'
    · -- no terminator was stripped: the output is the assembled text
      have hcond2 : ¬ (text.getLast? ≠ some '\n' ∧ (nlJoin bodies).getLast? = some '\n') :=
        fun hh => hh.1 hnl
      rw [if_neg hcond2] at hout
      have hends : out.getLast? = some '\n' := by
        rw [hout]
        exact nlJoin_getLast bodies hLb
      have hne_out : out ≠ [] := by
        intro hh
        rw [hh] at hends
        simp at hends
      have hlines : rustLines out = bodies := by
        unfold rustLines
        rw [if_neg hne_out, if_pos hends, hout, hsplit,
          dropLast_append_singleton, map_stripCr_eq_self bodies hbcr]
      refine extract_of_clean scope out bodies hcond hlines hbdecl ?_
      rw [if_neg (fun hh => hh.1 hends), hout]
    · -- one terminator was stripped: the output is `unsplit bodies`
      have hends : (nlJoin bodies).getLast? = some '\n' := nlJoin_getLast bodies hLb
      rw [if_pos ⟨hnl, hends⟩, dropLast_nlJoin bodies hLb] at hout
      by_cases hne_out : out = []
      · rw [hne_out]
        exact extract_of_clean scope [] [] hcond rfl (by simp) (by decide)
      · rcases List.eq_nil_or_concat bodies with rfl | ⟨bs, blast, rfl⟩
        · exact absurd rfl hLb
        · simp only [List.concat_eq_append] at hb2 hb3 hrun hout hbnl hbcr hbdecl hLb hsplit hends
          have hbs_sub : ∀ b ∈ bs, b ∈ bs ++ [blast] :=
            fun b hb => List.mem_append.2 (Or.inl hb)
          by_cases hends2 : out.getLast? = some '\n'
          · -- the final line was blanked: `blast = []`
            have hbs_ne : bs ≠ [] := by
              intro hh
              subst hh
              simp only [List.nil_append, unsplit] at hout
              rw [hout] at hends2
              exact hbnl blast (by simp) (mem_of_getLast?_eq blast '\n' hends2)
            have hblast : blast = [] := by
              by_contra hbl
              rw [hout, unsplit_concat bs blast hbs_ne] at hends2
              rw [getLast?_append_right (unsplit bs) ('\n' :: blast) (by simp)] at hends2
              rw [show ('\n' :: blast) = ['\n'] ++ blast from rfl,
                getLast?_append_right ['\n'] blast hbl] at hends2
              exact hbnl blast (List.mem_append.2 (Or.inr (by simp)))
                (mem_of_getLast?_eq blast '\n' hends2)
            subst hblast
            have hout2 : out = unsplit bs ++ ['\n'] := by
              rw [hout, ← unsplit_append_nil bs hbs_ne]
            have hlines : rustLines out = bs := by
              unfold rustLines
              rw [if_neg hne_out, if_pos hends2, hout2, ← unsplit_append_nil bs hbs_ne,
                splitOnNl_unsplit (bs ++ [[]]) (by simp) ?memnl,
                dropLast_append_singleton,
                map_stripCr_eq_self bs (fun b hb => hbcr b (hbs_sub b hb))]
              case memnl =>
                intro p hp
                rcases List.mem_append.1 hp with h1 | h1
                · exact hbnl p (hbs_sub p h1)
                · simp at h1
                  simp [h1]
            refine extract_of_clean scope out bs hcond hlines
              (fun b hb => hbdecl b (hbs_sub b hb)) ?_
            rw [if_neg (fun hh => hh.1 hends2), nlJoin_eq_append bs hbs_ne, hout2]
          · -- the final line kept its content
            have hlines : rustLines out = bs ++ [blast] := by
              unfold rustLines
              rw [if_neg hne_out, if_neg hends2, hout,
                splitOnNl_unsplit (bs ++ [blast]) (by simp) hbnl,
                dropLast_append_singleton, getLast?_append_singleton,
                map_stripCr_eq_self bs (fun b hb => hbcr b (hbs_sub b hb))]
              rfl
            refine extract_of_clean scope out (bs ++ [blast]) hcond hlines hbdecl ?_
            rw [if_pos ⟨fun hh => hends2 hh, nlJoin_getLast (bs ++ [blast]) (by simp)⟩,
              dropLast_nlJoin (bs ++ [blast]) (by simp), hout]

/-- Witness for the amended C8 at a concrete carriage-return-free input. -/
theorem C8_witness :
    extract_scope "a\n".data (Scope.DefinedScope "d".data) = .ok "a\n".data :=
  C8_amended_idempotent_cr_free "a\n@d".data (Scope.DefinedScope "d".data) "a\n".data
    (by decide) (by decide)

end Quill
